import Mathlib

/-!
Verification development for the semantic-retrieval core of the BookBodh
backend: the in-memory chunk store (`backend/app/database/books.py`,
class `BookDatabase`) and the vector index over chunk embeddings
(`backend/app/database/embeddings.py`, class `EmbeddingStore`).

The Python source is shallowly embedded: every stateful method becomes a
pure Lean function from the old state (plus the inputs the environment
supplies: generated uuids, the contents of the external cache file, the
opaque sentence-embedding encoder) to the new state and the returned
value.  Machine floats produced by the encoder and by FAISS are modelled
as exact integers (the claims settled here are structural — result
lengths, orderings, which ids appear — and do not depend on rounding); the encoder itself is an arbitrary parameter
`encode : String → List ℤ`.  Fallible operations (Python `IndexError`,
`ValueError`) are modelled with `Option`.
-/

namespace BookBodh

set_option maxRecDepth 100000

/-- Python `str.split()` with no argument: split on runs of whitespace and
drop empty pieces.  `re.sub(r'\s+', ' ', content).strip()` followed by
`.split()` (as in `books.py`) has exactly this effect. -/
def pyWords (s : String) : List String :=
  (s.split (fun c => c.isWhitespace)).filter (fun w => w ≠ "")

/-- Python list indexing `xs[i]` with an `int` index: a negative index
counts from the end; an out-of-range index raises `IndexError`, modelled
as `none`. -/
def pyGet {α : Type} (xs : List α) (i : Int) : Option α :=
  let j : Int := if i < 0 then (xs.length : Int) + i else i
  if j < 0 then none else xs.get? j.toNat

/-- Python `range(0, n, step)` for `step > 0`: the indices
`0, step, 2*step, …` strictly below `n`. -/
def pyRange (n step : Nat) : List Nat :=
  (List.range' 0 ((n + step - 1) / step) step)

/-- The slicing loop shared by `_process_books` and `add_book`:
`for i in range(0, len(words), step): chunk_words = words[i:i+size]`,
keeping only non-empty slices (`if chunk_words:`). -/
def pySlices (ws : List String) (size step : Nat) : List (List String) :=
  ((pyRange ws.length step).map (fun i => (ws.drop i).take size)).filter
    (fun c => c ≠ [])

/-! ### Python dictionaries

`BookDatabase.books` and `EmbeddingStore.book_to_indices` are Python
dicts with string keys: insertion-ordered association lists with unique
keys.  Assignment to an existing key updates in place, assignment to a
fresh key appends. -/

/-- Dictionary lookup (`d[k]` / `k in d`). -/
def dictFind {β : Type} : List (String × β) → String → Option β
  | [], _ => none
  | p :: rest, k => if p.1 = k then some p.2 else dictFind rest k

/-- Dictionary assignment `d[k] = v`. -/
def dictSet {β : Type} : List (String × β) → String → β → List (String × β)
  | [], k, v => [(k, v)]
  | p :: rest, k, v => if p.1 = k then (k, v) :: rest else p :: dictSet rest k v

/-- The idiom `if k not in d: d[k] = []` followed by `d[k].append(i)`
used to build `book_to_indices`. -/
def dictPush : List (String × List Nat) → String → Nat → List (String × List Nat)
  | [], k, i => [(k, [i])]
  | p :: rest, k, i =>
    if p.1 = k then (p.1, p.2 ++ [i]) :: rest else p :: dictPush rest k i

/-! ### The chunk store (`books.py`) -/

/-- One chunk dict as appended to `BookDatabase.chunks`.  `chunk_index`
is present only on chunks created through `add_chunk`. -/
structure Chunk where
  id : Int
  book_id : String
  title : String
  author : String
  text : String
  chunk_index : Option Int := none
  deriving Repr, DecidableEq

/-- One value of the `BookDatabase.books` dict.  The three sample books
hard-coded in `__init__` carry no `"id"` key, hence the `Option`. -/
structure BookData where
  id : Option String
  author : String
  content : String
  deriving Repr, DecidableEq

/-- One book record of the external `books_cache.json` file
(`external_data["books"][book_id]`). -/
structure ExtBook where
  title : String
  author : String
  content : String
  deriving Repr, DecidableEq

/-- The parsed content of `books_cache.json` as read by
`_load_external_books`. -/
structure External where
  books : List (String × ExtBook)
  chunks : List Chunk
  deriving Repr, DecidableEq

/-- The mutable state of a `BookDatabase` instance. -/
structure BookDB where
  books : List (String × BookData)
  chunks : List Chunk
  deriving Repr, DecidableEq

/-- `" ".join(chunk_words)` over a list of word slices, assigning the
consecutive integer ids `startId, startId+1, …` — the
`self.chunks.append({...}); chunk_id += 1` loop body shared by
`_process_books` and `add_book`. -/
def mkChunks (startId : Nat) (bookId title author : String) :
    List (List String) → List Chunk
  | [] => []
  | ws :: rest =>
    { id := (startId : Int), book_id := bookId, title := title,
      author := author, text := String.intercalate " " ws } ::
      mkChunks (startId + 1) bookId title author rest

/-- `BookDatabase._process_books` (chunk_size 300, step 300 — this path
has no overlap), threading the global chunk-id counter and the per-book
uuid fall-back (`book_data.get("id", str(uuid.uuid4()))`, supplied here
by `freshId`) across the books dict. -/
def processBooks (freshId : Nat → String) :
    List (String × BookData) → Nat → Nat → List Chunk
  | [], _, _ => []
  | (title, bd) :: rest, bi, cid =>
    let bookId := bd.id.getD (freshId bi)
    let cks := mkChunks cid bookId title bd.author (pySlices (pyWords bd.content) 300 300)
    cks ++ processBooks freshId rest (bi + 1) (cid + cks.length)

/-- `BookDatabase._load_external_books`: `ext = none` models a missing or
unreadable cache file (the `except` path leaves the state untouched).
Books are added when the title is absent or `force_reload`; chunks are
appended unless a chunk with the same id is already present and not
`force_reload`. -/
def BookDB.loadExternalBooks (db : BookDB) (ext : Option External)
    (force : Bool) : BookDB :=
  match ext with
  | none => db
  | some data =>
    { books := data.books.foldl
        (fun bs p =>
          if (dictFind bs p.2.title).isNone || force then
            dictSet bs p.2.title
              { id := some p.1, author := p.2.author, content := p.2.content }
          else bs)
        db.books,
      chunks := data.chunks.foldl
        (fun cs c =>
          if !force && cs.any (fun c0 => c0.id == c.id) then cs else cs ++ [c])
        db.chunks }

/-- `BookDatabase.__init__`: the hard-coded sample books dict (its literal
texts are irrelevant to every property proved here, so it is a parameter),
`_process_books`, then `_load_external_books()`. -/
def BookDB.init (sampleBooks : List (String × BookData))
    (freshId : Nat → String) (ext : Option External) : BookDB :=
  BookDB.loadExternalBooks
    { books := sampleBooks, chunks := processBooks freshId sampleBooks 0 0 }
    ext false

/-- `BookDatabase.add_book`.  `bookUuid` is the fresh `str(uuid.uuid4())`,
`suffix8` the fresh `uuid.uuid4().hex[:8]` used when the title collides.
`_save_external_books` only writes the cache file and changes no in-memory
state.  Returns the new state and the returned book id. -/
def BookDB.add_book (db : BookDB) (title author content : String)
    (bookUuid suffix8 : String) : BookDB × String :=
  let title' := if (dictFind db.books title).isSome
    then title ++ " (" ++ suffix8 ++ ")" else title
  let books' := dictSet db.books title'
    { id := some bookUuid, author := author, content := content }
  -- chunk_size = 300, overlap = 50, so the range step is 250
  let newChunks := mkChunks db.chunks.length bookUuid title' author
    (pySlices (pyWords content) 300 250)
  ({ books := books', chunks := db.chunks ++ newChunks }, bookUuid)

/-- `BookDatabase.add_chunk`: the id is `len(self.chunks)`; returns the
new state and the chunk id. -/
def BookDB.add_chunk (db : BookDB) (book_id : String) (chunk_index : Int)
    (title text : String) (author : String) : BookDB × Int :=
  let cid : Int := db.chunks.length
  ({ db with
      chunks := db.chunks ++
        [{ id := cid, book_id := book_id, title := title, author := author,
           text := text, chunk_index := some chunk_index }] },
    cid)

/-- `BookDatabase.get_all_chunks`. -/
def BookDB.get_all_chunks (db : BookDB) : List Chunk := db.chunks

/-- `BookDatabase.get_chunk`: first chunk with the given id, else `None`. -/
def BookDB.get_chunk (db : BookDB) (chunk_id : Int) : Option Chunk :=
  db.chunks.find? (fun c => c.id = chunk_id)

/-- `BookDatabase.get_chunks_by_book`: linear filter by title. -/
def BookDB.get_chunks_by_book (db : BookDB) (book_title : String) : List Chunk :=
  db.chunks.filter (fun c => c.title = book_title)

/-- `BookDatabase.get_chunks_by_book_id`: filter by book id; on a miss,
reload the external cache (`_load_external_books()`, i.e. `force = false`)
and filter again.  Returns the found chunks and the (possibly mutated)
store. -/
def BookDB.get_chunks_by_book_id (db : BookDB) (book_id : String)
    (ext : Option External) : List Chunk × BookDB :=
  let found := db.chunks.filter (fun c => c.book_id = book_id)
  if found.isEmpty then
    let db' := db.loadExternalBooks ext false
    (db'.chunks.filter (fun c => c.book_id = book_id), db')
  else
    (found, db)

/-! ### The vector index (`embeddings.py`) -/

/-- Squared Euclidean (L2) distance, the metric of `faiss.IndexFlatL2`. -/
def sqDist (q v : List ℤ) : ℤ :=
  ((q.zip v).map (fun p => (p.1 - p.2) ^ 2)).sum

/-- Stand-in for the `FLT_MAX` distance FAISS writes into the result
array for padding entries when fewer than `k` neighbours exist
(`FLT_MAX ≈ 2^128`). -/
def fltMax : ℤ := 2 ^ 128

/-- The (label, distance) row FAISS computes for every stored vector:
labels are the sequential insertion positions. -/
def scoreRowsFrom (q : List ℤ) : Nat → List (List ℤ) → List (Int × ℤ)
  | _, [] => []
  | i, v :: vs => ((i : Int), sqDist q v) :: scoreRowsFrom q (i + 1) vs

/-- Insert one scored row into a list sorted by ascending distance. -/
def insertByDist (x : Int × ℤ) : List (Int × ℤ) → List (Int × ℤ)
  | [] => [x]
  | y :: ys => if x.2 ≤ y.2 then x :: y :: ys else y :: insertByDist x ys

/-- Sort scored rows by ascending distance (stable: earlier index first
on ties). -/
def sortByDist : List (Int × ℤ) → List (Int × ℤ)
  | [] => []
  | x :: xs => insertByDist x (sortByDist xs)

/-- `faiss.IndexFlatL2.search` with a single query: exact search, the
`min k n` nearest rows by ascending squared-L2 distance; when `k`
exceeds the number of stored vectors the result is padded to length `k`
with label `-1` and distance `FLT_MAX`. -/
def faissSearch (xs : List (List ℤ)) (q : List ℤ) (k : Nat) : List (Int × ℤ) :=
  let top := (sortByDist (scoreRowsFrom q 0 xs)).take k
  top ++ List.replicate (k - top.length) ((-1 : Int), fltMax)

/-- `for i, chunk in enumerate(self.chunks): ... book_to_indices[title].append(i)`
— the book-title → index-positions map built in `__init__` and rebuilt in
`update_index`. -/
def b2iAux : List Chunk → Nat → List (String × List Nat) → List (String × List Nat)
  | [], _, acc => acc
  | c :: rest, i, acc => b2iAux rest (i + 1) (dictPush acc c.title i)

/-- The complete `book_to_indices` map over a chunk list. -/
def buildBookToIndices (chunks : List Chunk) : List (String × List Nat) :=
  b2iAux chunks 0 []

/-- Total number of matrix entries, Python `ndarray.size`, used by the
`self.embeddings.size > 0` test in `update_index`. -/
def embSize (xs : List (List ℤ)) : Nat := (xs.map (·.length)).sum

/-- The mutable state of an `EmbeddingStore` instance.  `index` is the
row list held by the FAISS index object, `embeddings` the parallel
`self.embeddings` matrix. -/
structure EmbeddingStore where
  chunks : List Chunk
  chunk_ids : List Int
  dimension : Nat
  index : List (List ℤ)
  embeddings : List (List ℤ)
  book_to_indices : List (String × List Nat)
  deriving Repr, DecidableEq

/-- `EmbeddingStore.__init__` over the chunk store `db`.  Besides the
store it returns the list of batches handed to `self.model.encode`
(empty ⇔ the encoder was never invoked, as required for zero chunks). -/
def EmbeddingStore.init (encode : String → List ℤ) (db : BookDB) :
    EmbeddingStore × List (List String) :=
  let chunks := db.get_all_chunks
  let chunk_ids := chunks.map (·.id)
  let texts := chunks.map (·.text)
  if texts.isEmpty then
    -- empty index: default dimension 384 (all-MiniLM-L6-v2),
    -- `np.array([]).reshape(0, dimension)` matrix
    ({ chunks := chunks, chunk_ids := chunk_ids, dimension := 384,
       index := [], embeddings := [], book_to_indices := [] }, [])
  else
    let embeddings := texts.map encode
    ({ chunks := chunks, chunk_ids := chunk_ids,
       dimension := (embeddings.headD []).length,  -- embeddings.shape[1]
       index := embeddings, embeddings := embeddings,
       book_to_indices := buildBookToIndices chunks }, [texts])

/-- `EmbeddingStore.update_index`.  `db` supplies
`self.book_db.get_all_chunks()`.  `ids_to_add` is the set difference of
the new and current chunk-id sets; only membership and emptiness of that
set are consumed, so it is kept as the filtered id list.  Returns the new
state and the batches handed to the encoder. -/
def EmbeddingStore.update_index (encode : String → List ℤ)
    (s : EmbeddingStore) (db : BookDB) : EmbeddingStore × List (List String) :=
  let new_chunks := db.get_all_chunks
  let new_chunk_ids := new_chunks.map (·.id)
  let ids_to_add := new_chunk_ids.filter (fun i => ! s.chunk_ids.contains i)
  if ids_to_add.isEmpty then
    (s, [])
  else
    -- `for i, chunk_id in enumerate(new_chunk_ids): if chunk_id in ids_to_add`
    let new_texts := (new_chunks.filter
      (fun c => ! s.chunk_ids.contains c.id)).map (·.text)
    if new_texts.isEmpty then
      (s, [])
    else
      let new_embeddings := new_texts.map encode
      ({ chunks := new_chunks, chunk_ids := new_chunk_ids,
         dimension := s.dimension,
         index := s.index ++ new_embeddings,
         embeddings := if embSize s.embeddings > 0
           then s.embeddings ++ new_embeddings else new_embeddings,
         book_to_indices := buildBookToIndices new_chunks },
        [new_texts])

/-- The unfiltered branch of `EmbeddingStore.search`:
`D, I = self.index.search(query_embedding, k)` followed by
`[(self.chunk_ids[idx], score) for idx, score in zip(I[0], D[0])]`.
The list access raises `IndexError` (`none`) when an index position has
no corresponding chunk id. -/
def EmbeddingStore.searchGlobal (s : EmbeddingStore) (q : List ℤ) (k : Nat) :
    Option (List (Int × ℤ)) :=
  (faissSearch s.index q k).mapM
    (fun pr => (pyGet s.chunk_ids pr.1).map (fun cid => (cid, pr.2)))

/-- `EmbeddingStore.search`.  The Python guard
`if filter_book and filter_book in self.book_to_indices` takes the
book-filtered branch only for a non-empty title present in the map; the
filtered branch builds a transient index over that book's rows, searches
it with `min(k, len(book_indices))`, and maps labels back through
`book_indices` to chunk ids.  `np.vstack` on zero rows raises
(`none`). -/
def EmbeddingStore.search (encode : String → List ℤ) (s : EmbeddingStore)
    (query : String) (k : Nat) (filter_book : Option String) :
    Option (List (Int × ℤ)) :=
  let q := encode query
  match filter_book with
  | some fb =>
    match dictFind s.book_to_indices fb with
    | some book_indices =>
      if fb = "" then s.searchGlobal q k
      else do
        let book_embeddings ← book_indices.mapM (fun i => s.embeddings.get? i)
        if book_embeddings.isEmpty then none
        else
          let res := faissSearch book_embeddings q (min k book_indices.length)
          res.mapM (fun pr => do
            let pos ← pyGet book_indices pr.1
            let cid ← s.chunk_ids.get? pos
            pure (cid, pr.2))
    | none => s.searchGlobal q k
  | none => s.searchGlobal q k

/-! ### Helper lemmas -/

/-- `xs[n]` for a valid non-negative Python index. -/
theorem pyGet_natCast {α : Type} (xs : List α) (n : Nat) (h : n < xs.length) :
    pyGet xs (n : Int) = some (xs.get ⟨n, h⟩) := by
  have h0 : ¬ ((n : Int) < 0) := by omega
  simp [pyGet, h0, List.get?_eq_get, h]

theorem mem_insertByDist {a x : Int × ℤ} {l : List (Int × ℤ)} :
    a ∈ insertByDist x l ↔ a = x ∨ a ∈ l := by
  induction l with
  | nil => simp [insertByDist]
  | cons y ys ih =>
    unfold insertByDist
    by_cases h : x.2 ≤ y.2
    · simp [h]
    · simp [h, ih]
      tauto

theorem length_insertByDist (x : Int × ℤ) (l : List (Int × ℤ)) :
    (insertByDist x l).length = l.length + 1 := by
  induction l with
  | nil => rfl
  | cons y ys ih =>
    unfold insertByDist
    by_cases h : x.2 ≤ y.2 <;> simp [h, ih]

theorem sorted_insertByDist (x : Int × ℤ) :
    ∀ (l : List (Int × ℤ)), l.Pairwise (fun a b => a.2 ≤ b.2) →
    (insertByDist x l).Pairwise (fun a b => a.2 ≤ b.2) := by
  intro l
  induction l with
  | nil => intro _; simp [insertByDist]
  | cons y ys ih =>
    intro hl
    have h1 : ∀ b ∈ ys, y.2 ≤ b.2 := (List.pairwise_cons.1 hl).1
    have h2 : ys.Pairwise (fun a b => a.2 ≤ b.2) := (List.pairwise_cons.1 hl).2
    unfold insertByDist
    by_cases h : x.2 ≤ y.2
    · rw [if_pos h, List.pairwise_cons]
      refine ⟨?_, hl⟩
      intro b hb
      rcases List.mem_cons.1 hb with hb | hb
      · exact hb ▸ h
      · exact le_trans h (h1 b hb)
    · rw [if_neg h, List.pairwise_cons]
      refine ⟨?_, ih h2⟩
      intro b hb
      rcases mem_insertByDist.1 hb with hb | hb
      · exact hb ▸ le_of_not_le h
      · exact h1 b hb

theorem mem_sortByDist {a : Int × ℤ} {l : List (Int × ℤ)} :
    a ∈ sortByDist l ↔ a ∈ l := by
  induction l with
  | nil => simp [sortByDist]
  | cons x xs ih => unfold sortByDist; rw [mem_insertByDist, ih]; simp

theorem length_sortByDist (l : List (Int × ℤ)) :
    (sortByDist l).length = l.length := by
  induction l with
  | nil => rfl
  | cons x xs ih => unfold sortByDist; rw [length_insertByDist, ih]; simp

theorem sorted_sortByDist (l : List (Int × ℤ)) :
    (sortByDist l).Pairwise (fun a b => a.2 ≤ b.2) := by
  induction l with
  | nil => simp [sortByDist]
  | cons x xs ih => exact sorted_insertByDist x _ ih

theorem length_scoreRowsFrom (q : List ℤ) (i : Nat) (xs : List (List ℤ)) :
    (scoreRowsFrom q i xs).length = xs.length := by
  induction xs generalizing i with
  | nil => rfl
  | cons v vs ih => unfold scoreRowsFrom; simp [ih]

theorem mem_scoreRowsFrom {q : List ℤ} {pr : Int × ℤ} :
    ∀ {i : Nat} {xs : List (List ℤ)}, pr ∈ scoreRowsFrom q i xs →
    ∃ j, ∃ h : j < xs.length, pr = (((i + j : Nat) : Int), sqDist q (xs.get ⟨j, h⟩)) := by
  intro i xs
  induction xs generalizing i with
  | nil => intro h; simp [scoreRowsFrom] at h
  | cons v vs ih =>
    intro hmem
    unfold scoreRowsFrom at hmem
    rcases List.mem_cons.1 hmem with h | h
    · exact ⟨0, by simp, by simpa using h⟩
    · rcases ih h with ⟨j, hj, hpr⟩
      exact ⟨j + 1, by simpa using hj, by simpa [Nat.add_assoc, Nat.add_comm 1 j] using hpr⟩

/-- On a flat index holding at least `k` vectors, `faiss` search returns
exactly the `k` best rows, with no padding. -/
theorem faissSearch_of_le (xs : List (List ℤ)) (q : List ℤ) (k : Nat)
    (h : k ≤ xs.length) :
    faissSearch xs q k = (sortByDist (scoreRowsFrom q 0 xs)).take k := by
  unfold faissSearch
  have hlen : (sortByDist (scoreRowsFrom q 0 xs)).length = xs.length := by
    rw [length_sortByDist, length_scoreRowsFrom]
  have : ((sortByDist (scoreRowsFrom q 0 xs)).take k).length = k := by
    simp [hlen, h]
  simp [this]

theorem mem_faissSearch_of_le {xs : List (List ℤ)} {q : List ℤ} {k : Nat}
    (h : k ≤ xs.length) {pr : Int × ℤ} (hmem : pr ∈ faissSearch xs q k) :
    ∃ j, ∃ hj : j < xs.length, pr = ((j : Int), sqDist q (xs.get ⟨j, hj⟩)) := by
  rw [faissSearch_of_le xs q k h] at hmem
  have h1 : pr ∈ sortByDist (scoreRowsFrom q 0 xs) :=
    (List.take_sublist k _).mem hmem
  have h2 : pr ∈ scoreRowsFrom q 0 xs := mem_sortByDist.1 h1
  rcases mem_scoreRowsFrom h2 with ⟨j, hj, hpr⟩
  exact ⟨j, hj, by simpa using hpr⟩

theorem sorted_faissSearch_of_le (xs : List (List ℤ)) (q : List ℤ) (k : Nat)
    (h : k ≤ xs.length) :
    (faissSearch xs q k).Pairwise (fun a b => a.2 ≤ b.2) := by
  rw [faissSearch_of_le xs q k h]
  exact List.Pairwise.sublist (List.take_sublist k _) (sorted_sortByDist _)

/-- `List.mapM` over `Option` succeeds pointwise. -/
theorem mapM_eq_some_map {α β : Type} (l : List α) (f : α → Option β)
    (g : α → β) (h : ∀ x ∈ l, f x = some (g x)) :
    l.mapM f = some (l.map g) := by
  induction l with
  | nil => rfl
  | cons x xs ih =>
    rw [List.mapM_cons, h x (List.mem_cons_self x xs),
      ih (fun y hy => h y (List.mem_cons_of_mem x hy))]
    rfl

theorem dictFind_dictPush_self (d : List (String × List Nat)) (k : String)
    (i : Nat) :
    dictFind (dictPush d k i) k = some ((dictFind d k).getD [] ++ [i]) := by
  induction d with
  | nil => simp [dictPush, dictFind]
  | cons p rest ih =>
    unfold dictPush
    by_cases h : p.1 = k <;> simp [dictFind, h, ih]

theorem dictFind_dictPush_ne (d : List (String × List Nat)) (k t : String)
    (i : Nat) (h : t ≠ k) :
    dictFind (dictPush d k i) t = dictFind d t := by
  have hkt : k ≠ t := Ne.symm h
  induction d with
  | nil => simp [dictPush, dictFind, hkt]
  | cons p rest ih =>
    unfold dictPush
    by_cases hp : p.1 = k
    · simp [dictFind, hp, hkt]
    · rw [if_neg hp]
      by_cases hpt : p.1 = t <;> simp [dictFind, hpt, ih]

/-- Invariant of the `book_to_indices` building loop: every position
stored under a title satisfies any predicate that holds of the enumerated
(title, position) pairs, and stored lists are never empty. -/
theorem b2iAux_find (P : String → Nat → Prop) :
    ∀ (rest : List Chunk) (i : Nat) (acc : List (String × List Nat)),
    (∀ t ps, dictFind acc t = some ps → ps ≠ [] ∧ ∀ p ∈ ps, P t p) →
    (∀ j (h : j < rest.length), P (rest.get ⟨j, h⟩).title (i + j)) →
    ∀ t ps, dictFind (b2iAux rest i acc) t = some ps →
      ps ≠ [] ∧ ∀ p ∈ ps, P t p := by
  intro rest
  induction rest with
  | nil => intro i acc hacc _ t ps hfind; exact hacc t ps hfind
  | cons c cs ih =>
    intro i acc hacc hrest t ps hfind
    refine ih (i + 1) (dictPush acc c.title i) ?_ ?_ t ps hfind
    · intro u qs hfind2
      by_cases ht : u = c.title
      · subst ht
        rw [dictFind_dictPush_self] at hfind2
        have hPi : P c.title i := by
          have h0 := hrest 0 (by simp)
          simpa using h0
        have hqs : qs = (dictFind acc c.title).getD [] ++ [i] := by
          exact (Option.some_inj.1 hfind2).symm
        subst hqs
        constructor
        · simp
        · intro p hp
          rcases List.mem_append.1 hp with hp | hp
          · rcases hd : dictFind acc c.title with _ | ps0
            · rw [hd] at hp; simp at hp
            · rw [hd] at hp
              exact (hacc c.title ps0 hd).2 p (by simpa using hp)
          · rw [List.mem_singleton] at hp
            exact hp ▸ hPi
      · rw [dictFind_dictPush_ne acc c.title u i ht] at hfind2
        exact hacc u qs hfind2
    · intro j hj
      have hj2 : j + 1 < (c :: cs).length := by simpa using Nat.succ_lt_succ hj
      have hP := hrest (j + 1) hj2
      have he : (c :: cs).get ⟨j + 1, hj2⟩ = cs.get ⟨j, hj⟩ := rfl
      rw [he] at hP
      have harith : i + (j + 1) = (i + 1) + j := by omega
      rw [harith] at hP
      exact hP

/-- Every position list stored in `buildBookToIndices cs` is non-empty
and holds only valid positions whose chunk carries exactly that title. -/
theorem buildBookToIndices_find {cs : List Chunk} {t : String}
    {ps : List Nat} (hfind : dictFind (buildBookToIndices cs) t = some ps) :
    ps ≠ [] ∧ ∀ p ∈ ps, ∃ h : p < cs.length, (cs.get ⟨p, h⟩).title = t := by
  refine b2iAux_find (fun t p => ∃ h : p < cs.length, (cs.get ⟨p, h⟩).title = t)
    cs 0 [] ?_ ?_ t ps hfind
  · intro u qs h; simp [dictFind] at h
  · intro j hj
    simp only [Nat.zero_add]
    exact ⟨hj, trivial⟩

/-- The state maintained by `__init__` and `update_index`: `chunk_ids`
and `embeddings` are the parallel projections of `chunks`, the FAISS
index holds exactly the embedding rows, and `book_to_indices` is built
from the full chunk list. -/
def Aligned (encode : String → List ℤ) (s : EmbeddingStore) : Prop :=
  s.chunk_ids = s.chunks.map Chunk.id ∧
  s.embeddings = s.chunks.map (fun c => encode c.text) ∧
  s.index = s.embeddings ∧
  s.book_to_indices = buildBookToIndices s.chunks

instance (encode : String → List ℤ) (s : EmbeddingStore) :
    Decidable (Aligned encode s) := by
  unfold Aligned
  infer_instance

theorem aligned_init (encode : String → List ℤ) (db : BookDB) :
    Aligned encode (EmbeddingStore.init encode db).1 := by
  unfold EmbeddingStore.init Aligned
  by_cases h : (db.get_all_chunks.map (·.text)).isEmpty
  · have hc : db.get_all_chunks = [] := by
      have h2 := List.isEmpty_iff.1 h
      exact List.map_eq_nil_iff.1 h2
    simp [h, hc, buildBookToIndices, b2iAux]
  · simp [h, List.map_map]

theorem mem_contains_true {l : List Int} {a : Int} (h : a ∈ l) :
    l.contains a = true :=
  List.elem_iff.2 h

/-- `update_index` with no store change between calls (or with only
appended, fresh-id chunks) preserves `Aligned`. -/
theorem aligned_update (encode : String → List ℤ) (s : EmbeddingStore)
    (db : BookDB) (added : List Chunk)
    (hA : Aligned encode s)
    (hEmb : embSize s.embeddings = 0 → s.embeddings = [])
    (happ : db.chunks = s.chunks ++ added)
    (hfresh : ∀ c ∈ added, ∀ c0 ∈ s.chunks, c.id ≠ c0.id) :
    Aligned encode (EmbeddingStore.update_index encode s db).1 := by
  obtain ⟨hids, hemb, hidx, hmap⟩ := hA
  have hfilter : (s.chunks ++ added).filter
      (fun c => ! s.chunk_ids.contains c.id) = added := by
    rw [List.filter_append]
    have h1 : s.chunks.filter (fun c => ! s.chunk_ids.contains c.id) = [] := by
      rw [List.filter_eq_nil_iff]
      intro c hc
      have hm : c.id ∈ s.chunk_ids := by
        rw [hids]
        exact List.mem_map.2 ⟨c, hc, rfl⟩
      simp [hm]
    have h2 : added.filter (fun c => ! s.chunk_ids.contains c.id) = added := by
      rw [List.filter_eq_self]
      intro c hc
      have hm : c.id ∉ s.chunk_ids := by
        rw [hids]
        intro hmem
        rcases List.mem_map.1 hmem with ⟨c0, hc0, hid⟩
        exact hfresh c hc c0 hc0 hid.symm
      simp [hm]
    rw [h1, h2, List.nil_append]
  have hfilterIds : ((s.chunks ++ added).map Chunk.id).filter
      (fun i => ! s.chunk_ids.contains i) = added.map Chunk.id := by
    rw [List.filter_map]
    exact congrArg (List.map Chunk.id) hfilter
  unfold EmbeddingStore.update_index
  simp only [BookDB.get_all_chunks, happ, hfilterIds]
  cases added with
  | nil =>
    simp only [List.map_nil, List.isEmpty_nil, if_true, List.append_nil]
    exact ⟨hids, hemb, hidx, hmap⟩
  | cons a rest =>
    have hne : ((a :: rest).map Chunk.id).isEmpty = false := by simp
    have hfilter2 : (s.chunks ++ a :: rest).filter
        (fun c => ! s.chunk_ids.contains c.id) = a :: rest := hfilter
    simp only [hne, Bool.false_eq_true, if_false, hfilter2]
    have htexts : ((a :: rest).map (·.text)).isEmpty = false := by simp
    simp only [htexts, Bool.false_eq_true, if_false]
    have hfun : (encode ∘ fun x : Chunk => x.text) =
        (fun c : Chunk => encode c.text) := rfl
    refine ⟨rfl, ?_, ?_, rfl⟩
    · by_cases hsz : embSize s.embeddings > 0
      · rw [hemb] at hsz
        simp [hsz, hemb, hfun]
      · have hz : embSize s.embeddings = 0 := by omega
        have he0 : s.embeddings = [] := hEmb hz
        have hc0 : s.chunks = [] := by
          rw [he0] at hemb
          exact List.map_eq_nil_iff.1 hemb.symm
        simp [hc0, he0, embSize, hfun]
    · by_cases hsz : embSize s.embeddings > 0
      · rw [hemb] at hsz
        simp [hsz, hidx, hemb, hfun]
      · have hz : embSize s.embeddings = 0 := by omega
        have he0 : s.embeddings = [] := hEmb hz
        have hc0 : s.chunks = [] := by
          rw [he0] at hemb
          exact List.map_eq_nil_iff.1 hemb.symm
        simp [hidx, he0, hc0, embSize, hfun]

theorem length_faissSearch_of_le (xs : List (List ℤ)) (q : List ℤ) (k : Nat)
    (h : k ≤ xs.length) : (faissSearch xs q k).length = k := by
  rw [faissSearch_of_le xs q k h]
  rw [List.length_take, length_sortByDist, length_scoreRowsFrom]
  omega

/-- Specification of the unfiltered (global) search branch on an aligned
store, for `k` at most the number of indexed vectors: it succeeds, is
sorted by ascending distance, returns scores that are the true squared-L2
distances to the identified chunks, and has exactly `k` entries. -/
theorem searchGlobal_spec (encode : String → List ℤ) (s : EmbeddingStore)
    (hA : Aligned encode s) (q : List ℤ) (k : Nat)
    (hk : k ≤ s.index.length) :
    ∃ res, s.searchGlobal q k = some res ∧
      res.Pairwise (fun a b => a.2 ≤ b.2) ∧
      (∀ pr ∈ res, ∃ c ∈ s.chunks,
        pr.1 = c.id ∧ pr.2 = sqDist q (encode c.text)) ∧
      res.length = k := by
  obtain ⟨hids, hemb, hidx, _⟩ := hA
  have hlen_ids : s.chunk_ids.length = s.chunks.length := by
    rw [hids, List.length_map]
  have hlen_idx : s.index.length = s.chunks.length := by
    rw [hidx, hemb, List.length_map]
  have hmem : ∀ pr ∈ faissSearch s.index q k,
      ∃ j, ∃ hj : j < s.chunks.length,
        pr = ((j : Int), sqDist q (encode (s.chunks.get ⟨j, hj⟩).text)) := by
    intro pr hpr
    rcases mem_faissSearch_of_le hk hpr with ⟨j, hj, hpr2⟩
    have hj2 : j < s.chunks.length := hlen_idx ▸ hj
    refine ⟨j, hj2, ?_⟩
    have e1 : s.index.get? j = some (s.index.get ⟨j, hj⟩) :=
      List.get?_eq_get hj
    have e2 : s.index.get? j = some (encode (s.chunks.get ⟨j, hj2⟩).text) := by
      rw [hidx, hemb, List.get?_map, List.get?_eq_get hj2]
      rfl
    rw [hpr2, Option.some_inj.1 (e1.symm.trans e2)]
  have hstep : ∀ pr ∈ faissSearch s.index q k,
      (pyGet s.chunk_ids pr.1).map (fun cid => (cid, pr.2)) =
        some ((pyGet s.chunk_ids pr.1).getD 0, pr.2) := by
    intro pr hpr
    rcases hmem pr hpr with ⟨j, hj, hpr2⟩
    have hj3 : j < s.chunk_ids.length := by omega
    rw [hpr2]
    rw [pyGet_natCast s.chunk_ids j hj3]
    rfl
  have hmapM := mapM_eq_some_map (faissSearch s.index q k)
    (fun pr => (pyGet s.chunk_ids pr.1).map (fun cid => (cid, pr.2)))
    (fun pr => ((pyGet s.chunk_ids pr.1).getD 0, pr.2)) hstep
  refine ⟨_, hmapM, ?_, ?_, ?_⟩
  · refine List.Pairwise.map _ ?_ (sorted_faissSearch_of_le s.index q k hk)
    intro a b hab
    exact hab
  · intro pr hpr
    rcases List.mem_map.1 hpr with ⟨pr0, hpr0, hg⟩
    rcases hmem pr0 hpr0 with ⟨j, hj, hpr2⟩
    have hj3 : j < s.chunk_ids.length := by omega
    refine ⟨s.chunks.get ⟨j, hj⟩, List.get_mem s.chunks j hj, ?_, ?_⟩
    · rw [← hg, hpr2]
      simp only [pyGet_natCast s.chunk_ids j hj3, Option.getD_some]
      have e1 : s.chunk_ids.get? j = some (s.chunk_ids.get ⟨j, hj3⟩) :=
        List.get?_eq_get hj3
      have e2 : s.chunk_ids.get? j = some ((s.chunks.get ⟨j, hj⟩).id) := by
        rw [hids, List.get?_map, List.get?_eq_get hj]
        rfl
      exact Option.some_inj.1 (e1.symm.trans e2)
    · rw [← hg, hpr2]
  · rw [List.length_map]
    exact length_faissSearch_of_le s.index q k hk

/-- Specification of the book-filtered search branch on an aligned store:
for a non-empty title present in the map, the search succeeds, its results
are sorted by ascending distance, every returned id belongs to a chunk of
the filtered book with the true squared-L2 distance as score, and the
result has `min k` (positions of that book) entries. -/
theorem searchFiltered_spec (encode : String → List ℤ) (s : EmbeddingStore)
    (hA : Aligned encode s) (query : String) (k : Nat) (fb : String)
    (hfb : fb ≠ "") (ps : List Nat)
    (hps : dictFind s.book_to_indices fb = some ps) :
    ∃ res, EmbeddingStore.search encode s query k (some fb) = some res ∧
      res.Pairwise (fun a b => a.2 ≤ b.2) ∧
      (∀ pr ∈ res, ∃ c ∈ s.chunks,
        pr.1 = c.id ∧ c.title = fb ∧
        pr.2 = sqDist (encode query) (encode c.text)) ∧
      res.length = min k ps.length := by
  obtain ⟨hids, hemb, hidx, hmap⟩ := hA
  have hps2 : dictFind (buildBookToIndices s.chunks) fb = some ps := by
    rw [← hmap]; exact hps
  have hvalid := buildBookToIndices_find hps2
  have hlen_emb : s.embeddings.length = s.chunks.length := by
    rw [hemb, List.length_map]
  have hlen_ids : s.chunk_ids.length = s.chunks.length := by
    rw [hids, List.length_map]
  have hm1 : ps.mapM (fun i => s.embeddings.get? i) =
      some (ps.map (fun p => s.embeddings.getD p [])) := by
    refine mapM_eq_some_map ps _ _ ?_
    intro p hp
    rcases hvalid.2 p hp with ⟨hlt, _⟩
    have hlt2 : p < s.embeddings.length := by omega
    rw [List.get?_eq_get hlt2, List.getD_eq_getElem _ _ hlt2]
    rfl
  have hBElen : (ps.map (fun p => s.embeddings.getD p [])).length = ps.length :=
    List.length_map ps _
  have hBEne : (ps.map (fun p => s.embeddings.getD p [])).isEmpty = false := by
    rw [List.isEmpty_eq_false]
    intro hnil
    exact hvalid.1 (List.map_eq_nil_iff.1 hnil)
  have hkk : min k ps.length ≤ (ps.map (fun p => s.embeddings.getD p [])).length := by
    rw [hBElen]; omega
  -- the value computed by the filtered branch
  have hsearch : EmbeddingStore.search encode s query k (some fb) =
      (faissSearch (ps.map (fun p => s.embeddings.getD p []))
          (encode query) (min k ps.length)).mapM
        (fun pr => (pyGet ps pr.1).bind
          (fun pos => (s.chunk_ids.get? pos).bind
            (fun cid => some (cid, pr.2)))) := by
    simp only [EmbeddingStore.search, hps, hfb, if_false, hm1,
      Option.bind_eq_bind, Option.some_bind, hBEne, Bool.false_eq_true,
      hBElen]
    rfl
  have hmem2 : ∀ pr ∈ faissSearch (ps.map (fun p => s.embeddings.getD p []))
      (encode query) (min k ps.length),
      ∃ j, ∃ hj : j < ps.length,
        pr = ((j : Int), sqDist (encode query)
          (s.embeddings.getD (ps.getD j 0) [])) := by
    intro pr hpr
    rcases mem_faissSearch_of_le hkk hpr with ⟨j, hj, hpr2⟩
    have hj2 : j < ps.length := by omega
    refine ⟨j, hj2, ?_⟩
    rw [hpr2]
    simp [List.get_eq_getElem, List.getElem_map, List.getD_eq_getElem ps 0 hj2,
      List.getElem?_eq_getElem hj2, Option.getD_some]
  have hstep : ∀ pr ∈ faissSearch (ps.map (fun p => s.embeddings.getD p []))
      (encode query) (min k ps.length),
      (pyGet ps pr.1).bind (fun pos => (s.chunk_ids.get? pos).bind
          (fun cid => some (cid, pr.2))) =
        some (s.chunk_ids.getD (ps.getD pr.1.toNat 0) 0, pr.2) := by
    intro pr hpr
    rcases hmem2 pr hpr with ⟨j, hj, hpr2⟩
    have hjD : ps.getD j 0 ∈ ps := by
      rw [List.getD_eq_getElem ps 0 hj]
      exact List.getElem_mem hj
    rcases hvalid.2 _ hjD with ⟨hplt, _⟩
    have hplt2 : ps.getD j 0 < s.chunk_ids.length := by omega
    rw [hpr2]
    have hpy : pyGet ps ((j : Nat) : Int) = some (ps.getD j 0) := by
      rw [pyGet_natCast ps j hj]
      rw [List.get_eq_getElem, List.getD_eq_getElem ps 0 hj]
    simp only [hpy, Option.some_bind, Int.toNat_natCast,
      List.get?_eq_get hplt2, List.get_eq_getElem,
      List.getD_eq_getElem s.chunk_ids 0 hplt2]
  have hmapM := mapM_eq_some_map _ _ _ hstep
  rw [hsearch, hmapM]
  refine ⟨_, rfl, ?_, ?_, ?_⟩
  · refine List.Pairwise.map _ ?_
      (sorted_faissSearch_of_le (ps.map (fun p => s.embeddings.getD p []))
        (encode query) (min k ps.length) hkk)
    intro a b hab
    exact hab
  · intro pr hpr
    rcases List.mem_map.1 hpr with ⟨pr0, hpr0, hg⟩
    rcases hmem2 pr0 hpr0 with ⟨j, hj, hpr2⟩
    have hjD : ps.getD j 0 ∈ ps := by
      rw [List.getD_eq_getElem ps 0 hj]
      exact List.getElem_mem hj
    rcases hvalid.2 _ hjD with ⟨hplt, htitle⟩
    have hplt2 : ps.getD j 0 < s.chunk_ids.length := by omega
    have hplt3 : ps.getD j 0 < s.embeddings.length := by omega
    have hcid : s.chunk_ids.getD (ps.getD j 0) 0 =
        (s.chunks.get ⟨ps.getD j 0, hplt⟩).id := by
      have e1 : s.chunk_ids.get? (ps.getD j 0) =
          some (s.chunk_ids.get ⟨ps.getD j 0, hplt2⟩) :=
        List.get?_eq_get hplt2
      have e2 : s.chunk_ids.get? (ps.getD j 0) =
          some ((s.chunks.get ⟨ps.getD j 0, hplt⟩).id) := by
        rw [hids, List.get?_map, List.get?_eq_get hplt]
        rfl
      rw [List.getD_eq_getElem s.chunk_ids 0 hplt2]
      have e3 := Option.some_inj.1 (e1.symm.trans e2)
      rw [List.get_eq_getElem] at e3
      exact e3
    have hrow : s.embeddings.getD (ps.getD j 0) [] =
        encode ((s.chunks.get ⟨ps.getD j 0, hplt⟩).text) := by
      have e6 : s.embeddings.get? (ps.getD j 0) =
          some (s.embeddings.get ⟨ps.getD j 0, hplt3⟩) :=
        List.get?_eq_get hplt3
      have e7 : s.embeddings.get? (ps.getD j 0) =
          some (encode ((s.chunks.get ⟨ps.getD j 0, hplt⟩).text)) := by
        rw [hemb, List.get?_map, List.get?_eq_get hplt]
        rfl
      rw [List.getD_eq_getElem s.embeddings [] hplt3]
      have e8 := Option.some_inj.1 (e6.symm.trans e7)
      rw [List.get_eq_getElem] at e8
      exact e8
    refine ⟨s.chunks.get ⟨ps.getD j 0, hplt⟩, List.get_mem _ _ _, ?_, htitle, ?_⟩
    · rw [← hg, hpr2]
      simp only [Int.toNat_natCast]
      exact hcid
    · rw [← hg, hpr2]
      simp only []
      exact congrArg (sqDist (encode query)) hrow
  · rw [List.length_map]
    exact length_faissSearch_of_le _ _ _ hkk

/-- With no filter the search is the global branch. -/
theorem search_none (encode : String → List ℤ) (s : EmbeddingStore)
    (query : String) (k : Nat) :
    EmbeddingStore.search encode s query k none =
      s.searchGlobal (encode query) k := rfl

/-- An empty filter string, or a title absent from the map, falls back to
the global branch (`if filter_book and filter_book in self.book_to_indices`). -/
theorem search_fallback (encode : String → List ℤ) (s : EmbeddingStore)
    (query : String) (k : Nat) (fb : String)
    (h : fb = "" ∨ dictFind s.book_to_indices fb = none) :
    EmbeddingStore.search encode s query k (some fb) =
      EmbeddingStore.search encode s query k none := by
  rcases h with h | h
  · subst h
    unfold EmbeddingStore.search
    cases hd : dictFind s.book_to_indices "" <;> simp [hd]
  · unfold EmbeddingStore.search
    simp [h]

/-! ### Concrete fixtures used by counterexamples and witnesses -/

/-- A concrete encoder: distinct one-dimensional vectors for the texts
used in the fixtures. -/
def encX : String → List ℤ := fun t =>
  if t = "qq" then [3] else if t = "ta" then [1] else
  if t = "tb" then [7] else [0]

def chunkA : Chunk :=
  { id := 0, book_id := "b1", title := "A", author := "au", text := "ta" }

def chunkB : Chunk :=
  { id := 1, book_id := "b2", title := "B", author := "au", text := "tb" }

def dbEmptyX : BookDB := { books := [], chunks := [] }

def dbAX : BookDB := { books := [], chunks := [chunkA] }

def dbABX : BookDB := { books := [], chunks := [chunkA, chunkB] }

/-- Store indexed over the single chunk `chunkA`. -/
def storeA : EmbeddingStore := (EmbeddingStore.init encX dbAX).1

/-- Store indexed over `chunkA` and `chunkB`. -/
def storeAB : EmbeddingStore := (EmbeddingStore.init encX dbABX).1

/-- Store over an empty chunk store. -/
def storeEmptyX : EmbeddingStore := (EmbeddingStore.init encX dbEmptyX).1

/-- Claim C1.  The claim states that for `n < k` the global and the
book-filtered search both return exactly `n` results, each carrying a
chunk id of a real indexed position.  The code violates this in the
global branch: `self.index.search(query_embedding, k)` is not clamped, so
FAISS pads the result to `k` entries with label `-1` and distance
`FLT_MAX`, and `self.chunk_ids[-1]` silently maps the padding to the LAST
chunk id (Python negative indexing); on an empty index the same lookup
raises `IndexError`.  Evaluated here on a one-chunk store with `k = 3`
(three results, two of them bogus duplicates of chunk id 0 at distance
`FLT_MAX`) and on an empty store with `k = 1` (error). -/
theorem C1_global_search_not_clamped :
    storeA.chunk_ids.length = 1 ∧
    EmbeddingStore.search encX storeA "qq" 3 none =
      some [(0, 4), (0, fltMax), (0, fltMax)] ∧
    EmbeddingStore.search encX storeEmptyX "qq" 1 none = none := by
  decide

/-- Every id filtered against its own list yields nothing to add. -/
theorem filter_not_contains_self (ids : List Int) :
    ids.filter (fun i => ! ids.contains i) = [] := by
  rw [List.filter_eq_nil_iff]
  intro a ha
  simpa using ha

/-- `update_index` on a store whose id set already covers the chunk
store's ids is a no-op that encodes nothing. -/
theorem update_index_noop (encode : String → List ℤ) (s : EmbeddingStore)
    (db : BookDB) (h : ∀ c ∈ db.chunks, c.id ∈ s.chunk_ids) :
    EmbeddingStore.update_index encode s db = (s, []) := by
  unfold EmbeddingStore.update_index
  simp only [BookDB.get_all_chunks]
  have hnil : ((db.chunks.map (fun x => x.id)).filter
      (fun i => ! s.chunk_ids.contains i)).isEmpty = true := by
    rw [List.isEmpty_iff, List.filter_eq_nil_iff]
    intro a ha
    rcases List.mem_map.1 ha with ⟨c, hc, hid⟩
    subst hid
    simpa using h c hc
  rw [if_pos hnil]

/-- Either `update_index` returns the store untouched with no encoder
call, or afterwards the id list is exactly the chunk store's id list. -/
theorem update_index_cases (encode : String → List ℤ) (s : EmbeddingStore)
    (db : BookDB) :
    EmbeddingStore.update_index encode s db = (s, []) ∨
    (EmbeddingStore.update_index encode s db).1.chunk_ids =
      db.chunks.map Chunk.id := by
  unfold EmbeddingStore.update_index
  simp only [BookDB.get_all_chunks]
  by_cases h1 : ((db.chunks.map (fun x => x.id)).filter
      (fun i => ! s.chunk_ids.contains i)).isEmpty = true
  · left
    rw [if_pos h1]
  · rw [if_neg h1]
    by_cases h2 : ((db.chunks.filter
        (fun c => ! s.chunk_ids.contains c.id)).map (fun x => x.text)).isEmpty = true
    · left
      rw [if_pos h2]
    · right
      rw [if_neg h2]

/-- Claim C4.  Calling `update_index` twice in a row against the same
chunk-store contents: the second call encodes nothing (empty batch list)
and returns the state unchanged, because the id set difference is empty. -/
theorem C4_update_index_idempotent (encode : String → List ℤ)
    (s : EmbeddingStore) (db : BookDB) :
    EmbeddingStore.update_index encode
        (EmbeddingStore.update_index encode s db).1 db =
      ((EmbeddingStore.update_index encode s db).1, []) := by
  rcases update_index_cases encode s db with h | h
  · have h1 : (EmbeddingStore.update_index encode s db).1 = s := by rw [h]
    rw [h1]
    exact h
  · refine update_index_noop encode _ db ?_
    intro c hc
    rw [h]
    exact List.mem_map.2 ⟨c, hc, rfl⟩

/-- Claim C2.  On an aligned store: every result of a book-filtered
search (non-empty title present in the map) identifies a chunk whose
title equals the filter; and a filter that is empty or absent from the
map degrades to the unfiltered global search. -/
theorem C2_filter_correct_and_fallback (encode : String → List ℤ)
    (s : EmbeddingStore) (hA : Aligned encode s) (query : String) (k : Nat)
    (fb : String) :
    (fb ≠ "" → ∀ ps, dictFind s.book_to_indices fb = some ps →
      ∀ res, EmbeddingStore.search encode s query k (some fb) = some res →
        ∀ pr ∈ res, ∃ c ∈ s.chunks, pr.1 = c.id ∧ c.title = fb) ∧
    ((fb = "" ∨ dictFind s.book_to_indices fb = none) →
      EmbeddingStore.search encode s query k (some fb) =
        EmbeddingStore.search encode s query k none) := by
  constructor
  · intro hfb ps hps res hres pr hpr
    rcases searchFiltered_spec encode s hA query k fb hfb ps hps with
      ⟨res0, hres0, _, hmem, _⟩
    have heq : res = res0 := Option.some_inj.1 (hres.symm.trans hres0)
    subst heq
    rcases hmem pr hpr with ⟨c, hc, hid, htitle, _⟩
    exact ⟨c, hc, hid, htitle⟩
  · intro hcase
    exact search_fallback encode s query k fb hcase

/-- Witness for C2 at a concrete aligned two-chunk store. -/
theorem C2_witness :
    Aligned encX storeAB ∧
    (("A" ≠ "" → ∀ ps, dictFind storeAB.book_to_indices "A" = some ps →
      ∀ res, EmbeddingStore.search encX storeAB "qq" 1 (some "A") = some res →
        ∀ pr ∈ res, ∃ c ∈ storeAB.chunks, pr.1 = c.id ∧ c.title = "A") ∧
    (("A" = "" ∨ dictFind storeAB.book_to_indices "A" = none) →
      EmbeddingStore.search encX storeAB "qq" 1 (some "A") =
        EmbeddingStore.search encX storeAB "qq" 1 none)) :=
  ⟨by decide, C2_filter_correct_and_fallback encX storeAB (by decide) "qq" 1 "A"⟩

/-- The invariant of claim C3: parallel `chunk_ids`/`embeddings`
sequences of equal length, `embeddings[i]` being the encoding of the
chunk whose id is `chunk_ids[i]`, and every stored map position valid
for the embeddings array. -/
def IndexInvariant (encode : String → List ℤ) (s : EmbeddingStore) : Prop :=
  s.chunk_ids.length = s.embeddings.length ∧
  s.chunk_ids = s.chunks.map Chunk.id ∧
  s.embeddings = s.chunks.map (fun c => encode c.text) ∧
  ∀ t ps, dictFind s.book_to_indices t = some ps →
    ∀ p ∈ ps, p < s.embeddings.length

theorem aligned_indexInvariant (encode : String → List ℤ)
    (s : EmbeddingStore) (hA : Aligned encode s) : IndexInvariant encode s := by
  obtain ⟨hids, hemb, hidx, hmap⟩ := hA
  refine ⟨?_, hids, hemb, ?_⟩
  · rw [hids, hemb, List.length_map, List.length_map]
  · intro t ps hfind p hp
    rw [hmap] at hfind
    rcases (buildBookToIndices_find hfind).2 p hp with ⟨hlt, _⟩
    rw [hemb, List.length_map]
    exact hlt

/-- Claim C3.  After construction, and after any `update_index` against
a chunk store that only appended fresh-id chunks, the parallel-array and
map-validity invariant holds. -/
theorem C3_parallel_arrays (encode : String → List ℤ) :
    (∀ db : BookDB, IndexInvariant encode (EmbeddingStore.init encode db).1) ∧
    (∀ (s : EmbeddingStore) (db : BookDB) (added : List Chunk),
      Aligned encode s →
      (embSize s.embeddings = 0 → s.embeddings = []) →
      db.chunks = s.chunks ++ added →
      (∀ c ∈ added, ∀ c0 ∈ s.chunks, c.id ≠ c0.id) →
      IndexInvariant encode (EmbeddingStore.update_index encode s db).1) := by
  constructor
  · intro db
    exact aligned_indexInvariant encode _ (aligned_init encode db)
  · intro s db added hA hEmb happ hfresh
    exact aligned_indexInvariant encode _
      (aligned_update encode s db added hA hEmb happ hfresh)

/-- Witness for C3: the one-chunk store absorbing one appended fresh
chunk. -/
theorem C3_witness :
    IndexInvariant encX (EmbeddingStore.init encX dbAX).1 ∧
    (Aligned encX storeA ∧
      (embSize storeA.embeddings = 0 → storeA.embeddings = []) ∧
      dbABX.chunks = storeA.chunks ++ [chunkB] ∧
      (∀ c ∈ [chunkB], ∀ c0 ∈ storeA.chunks, c.id ≠ c0.id)) ∧
    IndexInvariant encX (EmbeddingStore.update_index encX storeA dbABX).1 :=
  ⟨(C3_parallel_arrays encX).1 dbAX,
   ⟨by decide, by decide, by decide, by decide⟩,
   (C3_parallel_arrays encX).2 storeA dbABX [chunkB]
     (by decide) (by decide) (by decide) (by decide)⟩

/-- Counterexample to claim C5 as stated.  At the concrete global search
on a one-chunk store with `k = 2`, the result's second pair is
`(0, FLT_MAX)`, yet the distance from the query to the (unique) chunk
with id 0 is 4 ≠ FLT_MAX: not every returned score is the squared-L2
distance between the query embedding and that chunk's embedding. -/
theorem C5_counterexample :
    EmbeddingStore.search encX storeA "qq" 2 none =
      some [(0, 4), (0, fltMax)] ∧
    (∀ c ∈ storeA.chunks, c.id = 0 →
      sqDist (encX "qq") (encX c.text) ≠ fltMax) := by
  decide

/-- Claim C5 as amended.  Provided the requested `k` does not exceed the
number of indexed vectors in the global branch (the filtered branch
clamps by itself), search results are non-decreasing in score and every
score is the raw squared-L2 distance between the query embedding and the
returned chunk's embedding. -/
theorem C5_sorted_true_distances (encode : String → List ℤ)
    (s : EmbeddingStore) (hA : Aligned encode s) (query : String) (k : Nat) :
    (k ≤ s.index.length →
      ∃ res, EmbeddingStore.search encode s query k none = some res ∧
        res.Pairwise (fun a b => a.2 ≤ b.2) ∧
        ∀ pr ∈ res, ∃ c ∈ s.chunks, pr.1 = c.id ∧
          pr.2 = sqDist (encode query) (encode c.text)) ∧
    (∀ fb, fb ≠ "" → ∀ ps, dictFind s.book_to_indices fb = some ps →
      ∃ res, EmbeddingStore.search encode s query k (some fb) = some res ∧
        res.Pairwise (fun a b => a.2 ≤ b.2) ∧
        ∀ pr ∈ res, ∃ c ∈ s.chunks, pr.1 = c.id ∧
          pr.2 = sqDist (encode query) (encode c.text)) := by
  constructor
  · intro hk
    rw [search_none]
    rcases searchGlobal_spec encode s hA (encode query) k hk with
      ⟨res, h1, h2, h3, _⟩
    exact ⟨res, h1, h2, h3⟩
  · intro fb hfb ps hps
    rcases searchFiltered_spec encode s hA query k fb hfb ps hps with
      ⟨res, h1, h2, h3, _⟩
    refine ⟨res, h1, h2, ?_⟩
    intro pr hpr
    rcases h3 pr hpr with ⟨c, hc, hid, _, hscore⟩
    exact ⟨c, hc, hid, hscore⟩

/-- Witness for the amended C5 at the concrete aligned two-chunk store. -/
theorem C5_witness :
    Aligned encX storeAB ∧
    ((2 ≤ storeAB.index.length →
      ∃ res, EmbeddingStore.search encX storeAB "qq" 2 none = some res ∧
        res.Pairwise (fun a b => a.2 ≤ b.2) ∧
        ∀ pr ∈ res, ∃ c ∈ storeAB.chunks, pr.1 = c.id ∧
          pr.2 = sqDist (encX "qq") (encX c.text)) ∧
    (∀ fb, fb ≠ "" → ∀ ps, dictFind storeAB.book_to_indices fb = some ps →
      ∃ res, EmbeddingStore.search encX storeAB "qq" 2 (some fb) = some res ∧
        res.Pairwise (fun a b => a.2 ≤ b.2) ∧
        ∀ pr ∈ res, ∃ c ∈ storeAB.chunks, pr.1 = c.id ∧
          pr.2 = sqDist (encX "qq") (encX c.text))) :=
  ⟨by decide, C5_sorted_true_distances encX storeAB (by decide) "qq" 2⟩

/-- `update_index` on a store with an empty id list against a non-empty
chunk store takes the full-update path: the chunk field becomes the chunk
store's list. -/
theorem update_index_chunks_of_empty (encode : String → List ℤ)
    (s : EmbeddingStore) (db : BookDB) (hids : s.chunk_ids = [])
    (hne : db.chunks ≠ []) :
    (EmbeddingStore.update_index encode s db).1.chunks = db.chunks := by
  unfold EmbeddingStore.update_index
  simp only [BookDB.get_all_chunks, hids]
  have h1 : ¬ (((db.chunks.map (fun x => x.id)).filter
      (fun i => ! List.contains ([] : List Int) i)).isEmpty = true) := by
    rw [List.isEmpty_iff]
    intro hnil
    rw [List.filter_eq_nil_iff] at hnil
    cases hc : db.chunks with
    | nil => exact hne hc
    | cons a l =>
      have ha : a.id ∈ db.chunks.map (fun x => x.id) := by
        rw [hc]; simp
      have := hnil a.id ha
      simp [List.contains] at this
  rw [if_neg h1]
  have h2 : ¬ (((db.chunks.filter (fun c => ! List.contains ([] : List Int) c.id)).map
      (fun x => x.text)).isEmpty = true) := by
    rw [List.isEmpty_iff]
    intro hnil
    rw [List.map_eq_nil_iff, List.filter_eq_nil_iff] at hnil
    cases hc : db.chunks with
    | nil => exact hne hc
    | cons a l =>
      have ha : a ∈ db.chunks := by rw [hc]; simp
      have := hnil a ha
      simp [List.contains] at this
  rw [if_neg h2]

/-- Claim C6.  Constructing the store over an empty chunk store yields a
zero-vector index with the fixed default dimension 384, empty id list and
empty book map, and the encoder is never invoked (so in particular never
on an empty batch); after one chunk is appended and `update_index` runs,
a global search returns a non-empty result. -/
theorem C6_empty_init_then_grow (encode : String → List ℤ)
    (db db2 : BookDB) (c : Chunk) (h : db.chunks = [])
    (h2 : db2.chunks = [c]) (query : String) :
    (EmbeddingStore.init encode db).1.dimension = 384 ∧
    (EmbeddingStore.init encode db).1.index = [] ∧
    (EmbeddingStore.init encode db).1.embeddings = [] ∧
    (EmbeddingStore.init encode db).1.chunk_ids = [] ∧
    (EmbeddingStore.init encode db).1.book_to_indices = [] ∧
    (EmbeddingStore.init encode db).2 = [] ∧
    ∃ res, EmbeddingStore.search encode
        (EmbeddingStore.update_index encode
          (EmbeddingStore.init encode db).1 db2).1 query 1 none =
      some res ∧ res ≠ [] := by
  have hinit : EmbeddingStore.init encode db =
      ({ chunks := db.chunks, chunk_ids := db.chunks.map (·.id),
         dimension := 384, index := [], embeddings := [],
         book_to_indices := [] }, []) := by
    unfold EmbeddingStore.init
    simp only [BookDB.get_all_chunks]
    have hcond : ((db.chunks.map (fun x => x.text)).isEmpty) = true := by
      rw [h]
      rfl
    rw [if_pos hcond]
  have hfields : (EmbeddingStore.init encode db).1.dimension = 384 ∧
      (EmbeddingStore.init encode db).1.index = [] ∧
      (EmbeddingStore.init encode db).1.embeddings = [] ∧
      (EmbeddingStore.init encode db).1.chunk_ids = [] ∧
      (EmbeddingStore.init encode db).1.book_to_indices = [] ∧
      (EmbeddingStore.init encode db).2 = [] := by
    rw [hinit, h]
    exact ⟨rfl, rfl, rfl, rfl, rfl, rfl⟩
  refine ⟨hfields.1, hfields.2.1, hfields.2.2.1, hfields.2.2.2.1,
    hfields.2.2.2.2.1, hfields.2.2.2.2.2, ?_⟩
  have hA1 : Aligned encode (EmbeddingStore.init encode db).1 :=
    aligned_init encode db
  have hchunks1 : (EmbeddingStore.init encode db).1.chunks = [] := by
    rw [hinit]
    exact h
  have hA2 : Aligned encode (EmbeddingStore.update_index encode
      (EmbeddingStore.init encode db).1 db2).1 := by
    refine aligned_update encode _ db2 [c] hA1 ?_ ?_ ?_
    · intro _
      exact hfields.2.2.1
    · rw [hchunks1, h2]
      rfl
    · intro c1 _ c0 hc0
      rw [hchunks1] at hc0
      exact absurd hc0 (List.not_mem_nil c0)
  have hchunks2 : (EmbeddingStore.update_index encode
      (EmbeddingStore.init encode db).1 db2).1.chunks = [c] := by
    rw [update_index_chunks_of_empty encode _ db2 hfields.2.2.2.1
      (by rw [h2]; exact List.cons_ne_nil c [])]
    exact h2
  have hk : 1 ≤ (EmbeddingStore.update_index encode
      (EmbeddingStore.init encode db).1 db2).1.index.length := by
    obtain ⟨_, hemb2, hidx2, _⟩ := hA2
    rw [hidx2, hemb2, hchunks2]
    simp
  rw [search_none]
  rcases searchGlobal_spec encode _ hA2 (encode query) 1 hk with
    ⟨res, h1, _, _, hlen⟩
  refine ⟨res, h1, ?_⟩
  intro hresnil
  rw [hresnil] at hlen
  exact absurd hlen.symm (by simp)

/-- Witness for C6: empty store, then `chunkA` appended. -/
theorem C6_witness :
    dbEmptyX.chunks = [] ∧ dbAX.chunks = [chunkA] ∧
    ((EmbeddingStore.init encX dbEmptyX).1.dimension = 384 ∧
    (EmbeddingStore.init encX dbEmptyX).1.index = [] ∧
    (EmbeddingStore.init encX dbEmptyX).1.embeddings = [] ∧
    (EmbeddingStore.init encX dbEmptyX).1.chunk_ids = [] ∧
    (EmbeddingStore.init encX dbEmptyX).1.book_to_indices = [] ∧
    (EmbeddingStore.init encX dbEmptyX).2 = [] ∧
    ∃ res, EmbeddingStore.search encX
        (EmbeddingStore.update_index encX
          (EmbeddingStore.init encX dbEmptyX).1 dbAX).1 "qq" 1 none =
      some res ∧ res ≠ []) :=
  ⟨by decide, by decide,
   C6_empty_init_then_grow encX dbEmptyX dbAX chunkA (by decide) (by decide) "qq"⟩

/-- The chunk-loading loop of `_load_external_books` only appends, and
everything appended comes from the external data. -/
theorem foldl_append_chunks (force : Bool) (ecs : List Chunk) :
    ∀ cs, ∃ tail, ecs.foldl (fun cs c =>
        if !force && cs.any (fun c0 => c0.id == c.id) then cs else cs ++ [c])
      cs = cs ++ tail ∧ ∀ c ∈ tail, c ∈ ecs := by
  induction ecs with
  | nil =>
    intro cs
    exact ⟨[], by simp, by simp⟩
  | cons e es ih =>
    intro cs
    simp only [List.foldl_cons]
    by_cases hc : (!force && cs.any (fun c0 => c0.id == e.id)) = true
    · rw [if_pos hc]
      rcases ih cs with ⟨tail, h1, h2⟩
      exact ⟨tail, h1, fun c hc2 => List.mem_cons_of_mem e (h2 c hc2)⟩
    · rw [if_neg hc]
      rcases ih (cs ++ [e]) with ⟨tail, h1, h2⟩
      refine ⟨e :: tail, ?_, ?_⟩
      · rw [h1, List.append_assoc]
        rfl
      · intro c hc2
        rcases List.mem_cons.1 hc2 with hc2 | hc2
        · exact hc2 ▸ List.mem_cons_self e es
        · exact List.mem_cons_of_mem e (h2 c hc2)

/-- `_load_external_books` only appends chunks, all taken from the cache
file content. -/
theorem loadExternalBooks_chunks (db : BookDB) (e : External) (force : Bool) :
    ∃ tail, (db.loadExternalBooks (some e) force).chunks =
      db.chunks ++ tail ∧ ∀ c ∈ tail, c ∈ e.chunks := by
  unfold BookDB.loadExternalBooks
  exact foldl_append_chunks force e.chunks db.chunks

/-- Claim C9.  A chunk id with no corresponding chunk makes `get_chunk`
return the not-found value (`None`) rather than raising; a book id
matched by no chunk (in memory nor in the reloadable cache) makes
`get_chunks_by_book_id` return the empty list as a successful result. -/
theorem C9_missing_returns_empty (db : BookDB) (cid : Int) (bid : String)
    (ext : Option External) :
    ((∀ c ∈ db.chunks, c.id ≠ cid) → db.get_chunk cid = none) ∧
    ((∀ c ∈ db.chunks, c.book_id ≠ bid) →
      (∀ e, ext = some e → ∀ c ∈ e.chunks, c.book_id ≠ bid) →
      (db.get_chunks_by_book_id bid ext).1 = []) := by
  constructor
  · intro h
    unfold BookDB.get_chunk
    rw [List.find?_eq_none]
    intro c hc
    simpa using h c hc
  · intro h1 h2
    simp only [BookDB.get_chunks_by_book_id]
    have hfe : db.chunks.filter (fun c => c.book_id = bid) = [] := by
      rw [List.filter_eq_nil_iff]
      intro c hc
      simpa using h1 c hc
    rw [hfe]
    simp only [List.isEmpty_nil, if_true]
    show (db.loadExternalBooks ext false).chunks.filter
      (fun c => c.book_id = bid) = []
    rw [List.filter_eq_nil_iff]
    intro c hc
    cases ext with
    | none =>
      have hceq : (db.loadExternalBooks none false).chunks = db.chunks := rfl
      rw [hceq] at hc
      simpa using h1 c hc
    | some e =>
      rcases loadExternalBooks_chunks db e false with ⟨tail, he, hsub⟩
      rw [he] at hc
      rcases List.mem_append.1 hc with hc | hc
      · simpa using h1 c hc
      · simpa using h2 e rfl c (hsub c hc)

/-- Witness for C9: id 99 and book id "zz" match nothing in the one-chunk
store and there is no cache file. -/
theorem C9_witness :
    (∀ c ∈ dbAX.chunks, c.id ≠ 99) ∧
    (∀ c ∈ dbAX.chunks, c.book_id ≠ "zz") ∧
    dbAX.get_chunk 99 = none ∧
    (dbAX.get_chunks_by_book_id "zz" none).1 = [] :=
  ⟨by decide, by decide,
   (C9_missing_returns_empty dbAX 99 "zz" none).1 (by decide),
   (C9_missing_returns_empty dbAX 99 "zz" none).2 (by decide)
     (fun e he => Option.noConfusion he)⟩

/-- An external cache whose only chunk has id 1 (not matching its
position), used by the C8 counterexample and the C10 mutation scenario. -/
def extBad : External :=
  { books := [],
    chunks := [{ id := 1, book_id := "bx", title := "X", author := "a",
                 text := "tx" }] }

/-- Claim C10.  `get_chunks_by_book_id` is not a pure read: on a hit it
returns the matching chunks and leaves the store untouched; on a miss it
first reloads the external cache — which can grow the store — as the
concrete second conjunct shows (empty store, cache holding one chunk of
the requested book). -/
theorem C10_lookup_miss_mutates (db : BookDB) (bid : String)
    (ext : Option External) :
    (db.chunks.filter (fun c => c.book_id = bid) ≠ [] →
      db.get_chunks_by_book_id bid ext =
        (db.chunks.filter (fun c => c.book_id = bid), db)) ∧
    (dbEmptyX.get_chunks_by_book_id "bx" (some extBad)).2 ≠ dbEmptyX ∧
    (dbEmptyX.get_chunks_by_book_id "bx" (some extBad)).2.chunks.length = 1 := by
  refine ⟨?_, by decide, by decide⟩
  intro hne
  simp only [BookDB.get_chunks_by_book_id]
  rw [if_neg (fun hcond => hne (List.isEmpty_iff.1 hcond))]

/-- Witness for C10: a hit on book id "b1" returns the match and leaves
the store unchanged. -/
theorem C10_witness :
    dbAX.chunks.filter (fun c => c.book_id = "b1") ≠ [] ∧
    dbAX.get_chunks_by_book_id "b1" none =
      (dbAX.chunks.filter (fun c => c.book_id = "b1"), dbAX) :=
  ⟨by decide, (C10_lookup_miss_mutates dbAX "b1" none).1 (by decide)⟩

/-- Members of `range(0, n, step)` are strictly below `n`. -/
theorem mem_pyRange_lt {i n step : Nat} (hstep : 0 < step)
    (hi : i ∈ pyRange n step) : i < n := by
  unfold pyRange at hi
  rw [List.mem_range'] at hi
  rcases hi with ⟨m, hm, hieq⟩
  have h2 : (m + 1) * step ≤ n + step - 1 :=
    (Nat.le_div_iff_mul_le hstep).1 hm
  rw [Nat.succ_mul] at h2
  subst hieq
  rw [Nat.zero_add, Nat.mul_comm]
  omega

/-- For a positive window size every slice the loop keeps is non-empty,
so the `if chunk_words:` filter drops nothing. -/
theorem pySlices_eq (ws : List String) (size step : Nat) (hsize : 0 < size)
    (hstep : 0 < step) :
    pySlices ws size step =
      (pyRange ws.length step).map (fun i => (ws.drop i).take size) := by
  unfold pySlices
  rw [List.filter_eq_self]
  intro sl hsl
  rcases List.mem_map.1 hsl with ⟨i, hi, hsleq⟩
  have hilt : i < ws.length := mem_pyRange_lt hstep hi
  have hnil : (ws.drop i).take size ≠ [] := by
    intro hc
    have hlen := congrArg List.length hc
    rw [List.length_take, List.length_drop] at hlen
    simp only [List.length_nil] at hlen
    omega
  subst hsleq
  simpa using hnil

/-- The `j`-th slice produced for window `size` and stride `step`. -/
theorem pySlices_get? (ws : List String) (size step j : Nat)
    (hsize : 0 < size) (hstep : 0 < step) :
    (pySlices ws size step).get? j =
      if j < (ws.length + step - 1) / step then
        some ((ws.drop (step * j)).take size)
      else none := by
  rw [pySlices_eq ws size step hsize hstep, List.get?_map]
  unfold pyRange
  by_cases hj : j < (ws.length + step - 1) / step
  · rw [if_pos hj, List.get?_eq_getElem?, List.getElem?_range' 0 step hj]
    simp
  · rw [if_neg hj, List.get?_eq_getElem?]
    have hlen : (List.range' 0 ((ws.length + step - 1) / step) step).length =
        (ws.length + step - 1) / step := by simp
    rw [List.getElem?_eq_none]
    · rfl
    · omega

/-- The chunk-appending loop: the `j`-th created chunk joins the `j`-th
slice and carries id `startId + j`. -/
theorem mkChunks_get? (b t a : String) :
    ∀ (l : List (List String)) (s0 j : Nat),
      (mkChunks s0 b t a l).get? j = (l.get? j).map
        (fun ws => { id := ((s0 + j : Nat) : Int), book_id := b, title := t,
                     author := a, text := String.intercalate " " ws }) := by
  intro l
  induction l with
  | nil =>
    intro s0 j
    simp [mkChunks]
  | cons ws rest ih =>
    intro s0 j
    cases j with
    | zero => simp [mkChunks]
    | succ j2 =>
      show (mkChunks (s0 + 1) b t a rest).get? j2 = _
      rw [ih (s0 + 1) j2, List.get?_cons_succ]
      have harith : ∀ wsx : List String,
          ({ id := ((s0 + 1 + j2 : Nat) : Int), book_id := b, title := t,
             author := a, text := String.intercalate " " wsx } : Chunk) =
          { id := ((s0 + (j2 + 1) : Nat) : Int), book_id := b, title := t,
            author := a, text := String.intercalate " " wsx } := by
        intro wsx
        have : s0 + 1 + j2 = s0 + (j2 + 1) := by omega
        rw [this]
      cases rest.get? j2 with
      | none => rfl
      | some wsx => exact congrArg _ (harith wsx)

theorem dictFind_dictSet_self {β : Type} (d : List (String × β)) (k : String)
    (v : β) : dictFind (dictSet d k v) k = some v := by
  induction d with
  | nil => simp [dictSet, dictFind]
  | cons p rest ih =>
    unfold dictSet
    by_cases h : p.1 = k <;> simp [dictFind, h, ih]

/-- Claim C7.  `add_book` returns the freshly generated uuid; appends
(never rewrites) chunks; the `j`-th new chunk gets the next sequential
global id `len + j`, the fresh book id, the stored (suffix-disambiguated
on title collision) title, and the 300-word window starting at word
`250·j` of the cleaned content; consecutive windows share (up to) 50
words; and the stored title maps to the fresh book id in the books dict. -/
theorem C7_add_book_spec (db : BookDB)
    (title author content bookUuid suffix8 : String) :
    (db.add_book title author content bookUuid suffix8).2 = bookUuid ∧
    (∃ tail, (db.add_book title author content bookUuid suffix8).1.chunks =
        db.chunks ++ tail) ∧
    (∀ j, (db.add_book title author content bookUuid suffix8).1.chunks.get?
        (db.chunks.length + j) =
      if j < ((pyWords content).length + 249) / 250 then
        some { id := ((db.chunks.length + j : Nat) : Int),
               book_id := bookUuid,
               title := if (dictFind db.books title).isSome
                 then title ++ " (" ++ suffix8 ++ ")" else title,
               author := author,
               text := String.intercalate " "
                 (((pyWords content).drop (250 * j)).take 300) }
      else none) ∧
    (∀ j, (((pyWords content).drop (250 * j)).take 300).drop 250 =
      ((pyWords content).drop (250 * (j + 1))).take 50) ∧
    dictFind (db.add_book title author content bookUuid suffix8).1.books
        (if (dictFind db.books title).isSome
          then title ++ " (" ++ suffix8 ++ ")" else title) =
      some { id := some bookUuid, author := author, content := content } := by
  refine ⟨rfl, ⟨_, rfl⟩, ?_, ?_, ?_⟩
  · intro j
    show (db.chunks ++ mkChunks db.chunks.length bookUuid _ author
        (pySlices (pyWords content) 300 250)).get? (db.chunks.length + j) = _
    rw [List.get?_append_right (Nat.le_add_right _ _)]
    rw [Nat.add_sub_cancel_left]
    rw [mkChunks_get?]
    rw [pySlices_get? (pyWords content) 300 250 j (by omega) (by omega)]
    by_cases hj : j < ((pyWords content).length + 249) / 250
    · have hj2 : j < ((pyWords content).length + 250 - 1) / 250 := by
        simpa using hj
      rw [if_pos hj2, if_pos hj]
      rfl
    · have hj2 : ¬ j < ((pyWords content).length + 250 - 1) / 250 := by
        simpa using hj
      rw [if_neg hj2, if_neg hj]
      rfl
  · intro j
    rw [List.drop_take, List.drop_drop]
    have h1 : (300 : Nat) - 250 = 50 := rfl
    have h2 : 250 * j + 250 = 250 * (j + 1) := by ring
    rw [h1, h2]
  · show dictFind (dictSet db.books
        (if (dictFind db.books title).isSome
          then title ++ " (" ++ suffix8 ++ ")" else title) _) _ = _
    exact dictFind_dictSet_self _ _ _

/-- Positional-id invariant of the chunk store: every chunk's id equals
its position in the list.  This is what `chunk_id = len(self.chunks)`
relies on, and what a cache file written by `_save_external_books`
satisfies. -/
def PosIdL (cs : List Chunk) : Prop :=
  ∀ i (h : i < cs.length), (cs.get ⟨i, h⟩).id = (i : Int)

instance (cs : List Chunk) : Decidable (PosIdL cs) :=
  decidable_of_iff (∀ i : Fin cs.length, (cs.get i).id = ((i.1 : Nat) : Int))
    ⟨fun h i hlt => h ⟨i, hlt⟩, fun h i => h i.1 i.2⟩

/-- Appending chunks whose ids continue the positional sequence keeps the
invariant. -/
theorem posIdL_append (cs newcs : List Chunk) (h1 : PosIdL cs)
    (h2 : ∀ j (h : j < newcs.length),
      (newcs.get ⟨j, h⟩).id = ((cs.length + j : Nat) : Int)) :
    PosIdL (cs ++ newcs) := by
  intro i hlt
  rw [List.length_append] at hlt
  by_cases hc : i < cs.length
  · rw [List.get_append_left cs newcs hc]
    exact h1 i hc
  · have hge : cs.length ≤ i := by omega
    have hlt2 : i - cs.length < newcs.length := by omega
    rw [List.get_append_right cs newcs hge]
    · rw [h2 (i - cs.length) hlt2]
      have : cs.length + (i - cs.length) = i := by omega
      rw [this]

/-- Ids assigned by the chunk-creation loop are `startId + position`. -/
theorem mkChunks_id (s0 : Nat) (b t a : String) (l : List (List String)) :
    ∀ j (h : j < (mkChunks s0 b t a l).length),
      ((mkChunks s0 b t a l).get ⟨j, h⟩).id = ((s0 + j : Nat) : Int) := by
  intro j h
  have hq := mkChunks_get? b t a l s0 j
  rw [List.get?_eq_get h] at hq
  cases hget : l.get? j with
  | none =>
    rw [hget] at hq
    simp at hq
  | some ws =>
    rw [hget] at hq
    have heq := Option.some_inj.1 hq
    rw [heq]

/-- Concatenating two runs of sequential ids gives one run. -/
theorem get_id_append (cs1 cs2 : List Chunk) (cid : Nat)
    (h1 : ∀ j (h : j < cs1.length),
      (cs1.get ⟨j, h⟩).id = ((cid + j : Nat) : Int))
    (h2 : ∀ j (h : j < cs2.length),
      (cs2.get ⟨j, h⟩).id = ((cid + cs1.length + j : Nat) : Int)) :
    ∀ j (h : j < (cs1 ++ cs2).length),
      ((cs1 ++ cs2).get ⟨j, h⟩).id = ((cid + j : Nat) : Int) := by
  intro j hlt
  rw [List.length_append] at hlt
  by_cases hc : j < cs1.length
  · rw [List.get_append_left cs1 cs2 hc]
    exact h1 j hc
  · have hge : cs1.length ≤ j := by omega
    have hlt2 : j - cs1.length < cs2.length := by omega
    rw [List.get_append_right cs1 cs2 hge]
    · rw [h2 (j - cs1.length) hlt2]
      have : cid + cs1.length + (j - cs1.length) = cid + j := by omega
      rw [this]

/-- `_process_books` assigns the sequential ids `cid, cid+1, …` across
all books. -/
theorem processBooks_id (freshId : Nat → String) :
    ∀ (books : List (String × BookData)) (bi cid : Nat),
      ∀ j (h : j < (processBooks freshId books bi cid).length),
        ((processBooks freshId books bi cid).get ⟨j, h⟩).id =
          ((cid + j : Nat) : Int) := by
  intro books
  induction books with
  | nil =>
    intro bi cid j h
    simp [processBooks] at h
  | cons p rest ih =>
    intro bi cid
    obtain ⟨title, bd⟩ := p
    simp only [processBooks]
    refine get_id_append _ _ cid (mkChunks_id cid _ title bd.author _) ?_
    intro j h
    rw [ih (bi + 1) (cid + (mkChunks cid (bd.id.getD (freshId bi)) title
      bd.author (pySlices (pyWords bd.content) 300 300)).length) j h]

/-- `_process_books` over an initially empty chunk list establishes the
positional-id invariant. -/
theorem processBooks_posIdL (freshId : Nat → String)
    (books : List (String × BookData)) (bi : Nat) :
    PosIdL (processBooks freshId books bi 0) := by
  intro i h
  have := processBooks_id freshId books bi 0 i h
  rw [this]
  rw [Nat.zero_add]

/-- The chunk-reloading loop at `force = False`: from a positional store
that has already absorbed the first `j0` cache entries, cache entries
whose ids equal their cache positions are either skipped (id already
present) or appended exactly at their id's position, preserving the
invariant. -/
theorem loadChunks_posid :
    ∀ (ecs : List Chunk) (j0 : Nat) (cs : List Chunk),
      PosIdL cs →
      (∀ i (h : i < ecs.length),
        (ecs.get ⟨i, h⟩).id = ((j0 + i : Nat) : Int)) →
      j0 ≤ cs.length →
      PosIdL (ecs.foldl (fun cs c =>
        if cs.any (fun c0 => c0.id == c.id) then cs else cs ++ [c]) cs) := by
  intro ecs
  induction ecs with
  | nil =>
    intro j0 cs h1 _ _
    exact h1
  | cons e es ih =>
    intro j0 cs h1 h2 h3
    simp only [List.foldl_cons]
    have hid : e.id = (j0 : Int) := by
      have h0 := h2 0 (by simp)
      simpa using h0
    have h2n : ∀ i (h : i < es.length),
        (es.get ⟨i, h⟩).id = (((j0 + 1) + i : Nat) : Int) := by
      intro i h
      have hi2 : i + 1 < (e :: es).length := by simpa using Nat.succ_lt_succ h
      have hval := h2 (i + 1) hi2
      have he : (e :: es).get ⟨i + 1, hi2⟩ = es.get ⟨i, h⟩ := rfl
      rw [he] at hval
      have harith : j0 + (i + 1) = (j0 + 1) + i := by omega
      rw [harith] at hval
      exact hval
    by_cases hcase : j0 < cs.length
    · have hany : (cs.any (fun c0 => c0.id == e.id)) = true := by
        rw [List.any_eq_true]
        refine ⟨cs.get ⟨j0, hcase⟩, List.get_mem cs j0 hcase, ?_⟩
        rw [beq_iff_eq, h1 j0 hcase, hid]
      rw [if_pos hany]
      exact ih (j0 + 1) cs h1 h2n (by omega)
    · have hj0 : j0 = cs.length := by omega
      have hany : (cs.any (fun c0 => c0.id == e.id)) = false := by
        rw [List.any_eq_false]
        intro c0 hc0
        rcases List.mem_iff_get.1 hc0 with ⟨n, hn⟩
        rw [beq_iff_eq]
        intro hcontra
        rw [← hn, h1 n.1 n.2, hid] at hcontra
        have : n.1 = j0 := by exact_mod_cast hcontra
        have := n.2
        omega
      rw [if_neg (by rw [hany]; exact Bool.false_ne_true)]
      refine ih (j0 + 1) (cs ++ [e]) ?_ h2n (by simp [hj0])
      refine posIdL_append cs [e] h1 ?_
      intro j hj
      have hj02 : j = 0 := by
        simp only [List.length_singleton] at hj
        omega
      subst hj02
      show e.id = ((cs.length + 0 : Nat) : Int)
      rw [hid, hj0]
      norm_num

/-- `_load_external_books` (no forced reload) preserves the positional-id
invariant when the cache content itself satisfies it. -/
theorem loadExternalBooks_posid (db : BookDB) (e : External)
    (h1 : PosIdL db.chunks) (h2 : PosIdL e.chunks) :
    PosIdL (db.loadExternalBooks (some e) false).chunks := by
  unfold BookDB.loadExternalBooks
  have hfun : (fun (cs : List Chunk) (c : Chunk) =>
      if !false && cs.any (fun c0 => c0.id == c.id) then cs
      else cs ++ [c]) =
      (fun cs c => if cs.any (fun c0 => c0.id == c.id) then cs
        else cs ++ [c]) := by
    funext cs c
    simp
  show PosIdL (e.chunks.foldl _ db.chunks)
  rw [hfun]
  refine loadChunks_posid e.chunks 0 db.chunks h1 ?_ (by omega)
  intro i h
  rw [h2 i h]
  omega

/-- The positional-id invariant makes ids strictly increasing along the
list. -/
theorem posIdL_pairwise (cs : List Chunk) (h : PosIdL cs) :
    (cs.map Chunk.id).Pairwise (· < ·) := by
  rw [List.pairwise_iff_get]
  intro i j hij
  rw [List.get_map, List.get_map]
  have hi := h i.1 (by have h2 := i.2; simpa using h2)
  have hj := h j.1 (by have h2 := j.2; simpa using h2)
  rw [hi, hj]
  have hlt : i.1 < j.1 := hij
  exact Int.ofNat_lt.2 hlt

/-- Counterexample to claim C8 as stated.  An operation sequence through
the public methods — fresh store with no sample books, a
`get_chunks_by_book_id` miss that reloads a cache whose single chunk
carries id 1 (not matching its landing position 0), then one
`add_chunk` (which takes id `len(self.chunks)` = 1) — produces two
chunks with the same id 1: ids are neither unique nor monotonically
assigned. -/
theorem C8_counterexample :
    ¬ (((((BookDB.init [] (fun _ => "u") none).get_chunks_by_book_id "bx"
        (some extBad)).2.add_chunk "by" 0 "Y" "ty" "au").1.chunks.map
        Chunk.id).Nodup) := by
  decide

/-- Claim C8 as amended.  Provided every chunk loaded from the external
cache carries an id equal to its cache position (true of every cache the
store itself writes), the positional-id invariant is established by
construction and preserved by `add_book`, `add_chunk`,
`_load_external_books` and `get_chunks_by_book_id`; each operation only
appends (ids are never reused, reordered or dropped), and under the
invariant the id sequence is strictly increasing, hence unique. -/
theorem C8_ids_unique_monotone :
    (∀ (sampleBooks : List (String × BookData)) (freshId : Nat → String),
      PosIdL (BookDB.init sampleBooks freshId none).chunks) ∧
    (∀ (sampleBooks : List (String × BookData)) (freshId : Nat → String)
      (e : External), PosIdL e.chunks →
      PosIdL (BookDB.init sampleBooks freshId (some e)).chunks) ∧
    (∀ (db : BookDB) (t a c u sfx : String), PosIdL db.chunks →
      PosIdL (db.add_book t a c u sfx).1.chunks ∧
      ∃ tail, (db.add_book t a c u sfx).1.chunks = db.chunks ++ tail) ∧
    (∀ (db : BookDB) (bid : String) (ci : Int) (t tx au : String),
      PosIdL db.chunks →
      PosIdL (db.add_chunk bid ci t tx au).1.chunks ∧
      ∃ tail, (db.add_chunk bid ci t tx au).1.chunks = db.chunks ++ tail) ∧
    (∀ (db : BookDB) (e : External), PosIdL db.chunks → PosIdL e.chunks →
      PosIdL (db.loadExternalBooks (some e) false).chunks ∧
      ∃ tail, (db.loadExternalBooks (some e) false).chunks =
        db.chunks ++ tail) ∧
    (∀ (db : BookDB) (bid : String) (ext : Option External),
      PosIdL db.chunks → (∀ e, ext = some e → PosIdL e.chunks) →
      PosIdL (db.get_chunks_by_book_id bid ext).2.chunks ∧
      ∃ tail, (db.get_chunks_by_book_id bid ext).2.chunks =
        db.chunks ++ tail) ∧
    (∀ cs : List Chunk, PosIdL cs →
      (cs.map Chunk.id).Pairwise (· < ·) ∧ (cs.map Chunk.id).Nodup) := by
  have hload : ∀ (db : BookDB) (e : External), PosIdL db.chunks →
      PosIdL e.chunks →
      PosIdL (db.loadExternalBooks (some e) false).chunks ∧
      ∃ tail, (db.loadExternalBooks (some e) false).chunks =
        db.chunks ++ tail := by
    intro db e h1 h2
    refine ⟨loadExternalBooks_posid db e h1 h2, ?_⟩
    rcases loadExternalBooks_chunks db e false with ⟨tail, he, _⟩
    exact ⟨tail, he⟩
  refine ⟨?_, ?_, ?_, ?_, hload, ?_, ?_⟩
  · intro sampleBooks freshId
    exact processBooks_posIdL freshId sampleBooks 0
  · intro sampleBooks freshId e he
    exact loadExternalBooks_posid _ e (processBooks_posIdL freshId sampleBooks 0) he
  · intro db t a c u sfx h
    refine ⟨?_, ⟨_, rfl⟩⟩
    exact posIdL_append db.chunks _ h (mkChunks_id db.chunks.length _ _ _ _)
  · intro db bid ci t tx au h
    refine ⟨?_, ⟨_, rfl⟩⟩
    refine posIdL_append db.chunks _ h ?_
    intro j hj
    have hj0 : j = 0 := by
      simp only [List.length_singleton] at hj
      omega
    subst hj0
    show (db.chunks.length : Int) = ((db.chunks.length + 0 : Nat) : Int)
    norm_num
  · intro db bid ext h1 h2
    simp only [BookDB.get_chunks_by_book_id]
    by_cases hemp : (db.chunks.filter (fun c => c.book_id = bid)).isEmpty = true
    · rw [if_pos hemp]
      cases ext with
      | none => exact ⟨h1, [], by rw [List.append_nil]; rfl⟩
      | some e => exact hload db e h1 (h2 e rfl)
    · rw [if_neg hemp]
      exact ⟨h1, [], by simp⟩
  · intro cs h
    have hp := posIdL_pairwise cs h
    exact ⟨hp, hp.imp (fun hlt => ne_of_lt hlt)⟩

/-- Witness for the amended C8: the positional one-chunk store absorbing
one `add_chunk`. -/
theorem C8_witness :
    PosIdL dbAX.chunks ∧
    PosIdL (dbAX.add_chunk "b9" 0 "T9" "t9" "a9").1.chunks ∧
    ∃ tail, (dbAX.add_chunk "b9" 0 "T9" "t9" "a9").1.chunks =
      dbAX.chunks ++ tail :=
  ⟨by decide,
   (C8_ids_unique_monotone.2.2.2.1 dbAX "b9" 0 "T9" "t9" "a9" (by decide)).1,
   (C8_ids_unique_monotone.2.2.2.1 dbAX "b9" 0 "T9" "t9" "a9" (by decide)).2⟩

end BookBodh
